import Mathlib

/-!
Verification of the incremental line-counting engine of the code-line-counter
extension (src/src/extension.ts), as a shallow embedding in Lean.

Strings from the host language are modelled as Lean `String`; the per-file
count map (a JS `Record<string, number>` with insertion-order keys) is
modelled as an association list; JS numbers holding counts and totals are
modelled as `Nat` / `Int` (the running total is `Int` because the code adds
the signed delta `newCount - oldCount`).
-/

namespace CodeLineCounter

/-- The ASCII whitespace characters stripped by JavaScript `String.trim`
(the source only ever trims pieces of text split at line boundaries, so the
non-ASCII trimmed code points do not matter for the embedded claims). -/
def isJsWhitespace (c : Char) : Bool :=
  c = ' ' || c = '\t' || c = '\n' || c = '\r' || c = '\x0b' || c = '\x0c'

/-- JavaScript `String.trim`: drop leading and trailing whitespace. -/
def jsTrim (l : List Char) : List Char :=
  ((l.dropWhile isJsWhitespace).reverse.dropWhile isJsWhitespace).reverse

/-- Prepend a character to the first segment of a split result
(the result of splitting is never empty, the empty case is defensive). -/
def consHead (c : Char) : List (List Char) → List (List Char)
  | [] => [[c]]
  | l :: ls => (c :: l) :: ls

/-- `text.split(/\r?\n/)` from the source, on the character list:
both a bare `\n` and the two-character sequence `\r\n` separate segments;
a `\r` not followed by `\n` is ordinary text. -/
def jsSplitLines : List Char → List (List Char)
  | [] => [[]]
  | '\n' :: rest => [] :: jsSplitLines rest
  | '\r' :: '\n' :: rest => [] :: jsSplitLines rest
  | c :: rest => consHead c (jsSplitLines rest)

/-- `countTextLines` from the source:
`text.split(/\r?\n/).filter((line) => line.trim().length > 0).length`. -/
def countTextLines (text : String) : Nat :=
  ((jsSplitLines text.toList).filter (fun l => (jsTrim l).length > 0)).length

/-- Split a character list on `/` (segment decomposition of a path). -/
def splitSegs : List Char → List (List Char)
  | [] => [[]]
  | '/' :: rest => [] :: splitSegs rest
  | c :: rest => consHead c (splitSegs rest)

/-- The nonempty `/`-separated segments of a path. -/
def pathSegs (s : String) : List (List Char) :=
  (splitSegs s.toList).filter (fun seg => !seg.isEmpty)

/-- Segment-level core of Node `path.relative`: drop the common prefix,
then one `..` for every remaining segment of the base, followed by the
remaining segments of the target. -/
def relSegs : List (List Char) → List (List Char) → List (List Char)
  | a :: as, b :: bs =>
      if a = b then relSegs as bs
      else List.replicate (as.length + 1) (['.', '.']) ++ (b :: bs)
  | [], bs => bs
  | as, [] => List.replicate as.length (['.', '.'])

/-- Join path segments with `/`. -/
def joinSegs : List (List Char) → List Char
  | [] => []
  | [s] => s
  | s :: rest => s ++ '/' :: joinSegs rest

/-- Node `path.relative(fromPath, toPath)` for normalized absolute POSIX
paths (no `.`, `..` or trailing-slash components in the inputs). -/
def posixRelative (fromPath toPath : String) : String :=
  ⟨joinSegs (relSegs (pathSegs fromPath) (pathSegs toPath))⟩

/-- Node `path.join(root, name)` for a normalized root without a trailing
slash: `root ++ "/" ++ name`. -/
def joinPath (root name : String) : String :=
  ⟨root.toList ++ '/' :: name.toList⟩

/-- The rules-file name used by the source. -/
def gitignoreFileName : String := ".gitignore"

/-! ### The per-file count map (JS `Record<string, number>`) -/

/-- Property read `record[key]`: the value at the first (unique) matching
key, if present. -/
def lookupCount : List (String × Nat) → String → Option Nat
  | [], _ => none
  | (k, v) :: rest, p => if k = p then some v else lookupCount rest p

/-- Property write `record[key] = value`: replace the entry in place if the
key is present, append it otherwise (JS records keep insertion order). -/
def setKey : List (String × Nat) → String → Nat → List (String × Nat)
  | [], k, v => [(k, v)]
  | (k0, v0) :: rest, k, v =>
      if k0 = k then (k, v) :: rest else (k0, v0) :: setKey rest k v

/-- The keys of the map, in insertion order. -/
def keys (m : List (String × Nat)) : List String := m.map (fun kv => kv.1)

/-- The sum of all values stored in the map. -/
def sumVals (m : List (String × Nat)) : Nat := (m.map (fun kv => kv.2)).sum

/-! ### The environment and the workspace state -/

/-- The external collaborators of the aggregation engine, fixed for the
duration of one operation. `folders` is the first workspace folder path (if
any), `files` the result of the enumeration primitive
(`vscode.workspace.findFiles`), `disk` the file-reading primitive
(`fs.readFileSync`, `none` meaning the read throws).

`rules` is modelled from the spec: the `ignore`-library compilation of the
rules-file text (performed inside `loadGitignore` in the source) is external
library code, so the compiled exclusion predicate reachable from a root is
supplied by the environment, used only through membership tests as the spec
prescribes for `RuleSet`. -/
structure Env where
  folders : Option String
  files : List String
  rules : String → String → Bool
  disk : String → Option String

/-- The fields of a changed `vscode.TextDocument` that the source reads:
its URI scheme, its file-system path, and its in-memory content. -/
structure TextDocument where
  scheme : String
  fsPath : String
  content : String

/-- The mutable `workspaceState` object of the source. -/
structure WorkspaceState where
  path : Option String
  total : Int
  fileCounts : List (String × Nat)
  ig : String → Bool

/-- `countFileLines` from the source: read the file and count its lines,
yielding 0 on any read failure. -/
def countFileLines (env : Env) (documentPath : String) : Nat :=
  match env.disk documentPath with
  | some text => countTextLines text
  | none => 0

/-- `loadGitignore` from the source: the compiled exclusion predicate for
the rules file at `workspacePath` (the compilation itself is the external
`ignore` library, supplied through the environment, see `Env.rules`). -/
def loadGitignore (env : Env) (workspacePath : String) : String → Bool :=
  env.rules workspacePath

/-- `getTrackedFiles` from the source: every enumerated file whose
root-relative path the exclusion predicate does not ignore. -/
def getTrackedFiles (env : Env) (workspacePath : String)
    (ig : String → Bool) : List String :=
  env.files.filter (fun p => !(ig (posixRelative workspacePath p)))

/-- The expression `this.fileCounts[filePath] ?? countFileLines(filePath)`
from the `initialize` loop: reuse the stored count when the key is present,
read the file afresh only otherwise. -/
def nextCount (env : Env) (m : List (String × Nat)) (filePath : String) :
    Nat :=
  match lookupCount m filePath with
  | some c0 => c0
  | none => countFileLines env filePath

/-- The loop body of `initialize`:
`this.fileCounts[filePath] = this.fileCounts[filePath] ?? countFileLines(filePath);`
`this.total += this.fileCounts[filePath];` -/
def initStep (env : Env) (acc : List (String × Nat) × Int)
    (filePath : String) : List (String × Nat) × Int :=
  (setKey acc.1 filePath (nextCount env acc.1 filePath),
    acc.2 + (nextCount env acc.1 filePath : Int))

/-- `workspaceState.initialize` from the source: with no workspace folder it
returns unchanged; otherwise it sets the root, loads the rules, resets the
total to 0 and folds the loop body over the tracked files. The prior
`fileCounts` record is NOT cleared: it seeds the fold. -/
def initWorkspace (env : Env) (st : WorkspaceState) : WorkspaceState :=
  match env.folders with
  | none => st
  | some root =>
    let ig := loadGitignore env root
    let tracked := getTrackedFiles env root ig
    let mt := tracked.foldl (initStep env) (st.fileCounts, 0)
    { path := some root, total := mt.2, fileCounts := mt.1, ig := ig }

/-- `workspaceState.handleDocumentSave` from the source. -/
def handleDocumentSave (env : Env) (st : WorkspaceState)
    (docPath : String) : WorkspaceState :=
  match st.path with
  | none => st
  | some root =>
      if docPath = joinPath root gitignoreFileName then initWorkspace env st
      else st

/-- `workspaceState.handleDocumentChange` from the source. Note that the
only filters are the root being set, the URI scheme being `file`, and the
ignore test on the root-relative path: there is no containment check. -/
def handleDocumentChange (st : WorkspaceState)
    (doc : TextDocument) : WorkspaceState :=
  match st.path with
  | none => st
  | some root =>
      if doc.scheme ≠ "file" then st
      else
        let relativePath := posixRelative root doc.fsPath
        if st.ig relativePath then st
        else
          let newCount := countTextLines doc.content
          let oldCount := (lookupCount st.fileCounts doc.fsPath).getD 0
          { st with
              total := st.total + ((newCount : Int) - (oldCount : Int)),
              fileCounts := setKey st.fileCounts doc.fsPath newCount }

/-- A sequence of change events applied in order. -/
def runChanges (st : WorkspaceState) (ds : List TextDocument) :
    WorkspaceState :=
  ds.foldl handleDocumentChange st

/-! ### Lemmas about the count map -/

theorem keys_cons (k0 : String) (v0 : Nat) (rest : List (String × Nat)) :
    keys ((k0, v0) :: rest) = k0 :: keys rest := rfl

theorem sumVals_cons (k0 : String) (v0 : Nat) (rest : List (String × Nat)) :
    sumVals ((k0, v0) :: rest) = v0 + sumVals rest := rfl

theorem lookup_cons (k0 : String) (v0 : Nat) (rest : List (String × Nat))
    (p : String) :
    lookupCount ((k0, v0) :: rest) p =
      if k0 = p then some v0 else lookupCount rest p := rfl

theorem setKey_cons (k0 : String) (v0 : Nat) (rest : List (String × Nat))
    (k : String) (v : Nat) :
    setKey ((k0, v0) :: rest) k v =
      if k0 = k then (k, v) :: rest else (k0, v0) :: setKey rest k v := rfl

theorem lookup_setKey_self (m : List (String × Nat)) (k : String) (v : Nat) :
    lookupCount (setKey m k v) k = some v := by
  induction m with
  | nil => simp [setKey, lookupCount]
  | cons kv rest ih =>
    obtain ⟨k0, v0⟩ := kv
    by_cases h : k0 = k <;> simp [setKey_cons, lookup_cons, h, ih]

theorem lookup_setKey_ne (m : List (String × Nat)) (k p : String) (v : Nat)
    (hne : p ≠ k) : lookupCount (setKey m k v) p = lookupCount m p := by
  have hkp : k ≠ p := fun h => hne h.symm
  induction m with
  | nil => simp [setKey, lookupCount, hkp]
  | cons kv rest ih =>
    obtain ⟨k0, v0⟩ := kv
    by_cases h : k0 = k
    · subst h
      simp [setKey_cons, lookup_cons, hkp]
    · rw [setKey_cons, if_neg h, lookup_cons, lookup_cons, ih]

theorem setKey_same (m : List (String × Nat)) (k : String) (v : Nat)
    (h : lookupCount m k = some v) : setKey m k v = m := by
  induction m with
  | nil => simp [lookupCount] at h
  | cons kv rest ih =>
    obtain ⟨k0, v0⟩ := kv
    by_cases h0 : k0 = k
    · rw [lookup_cons, if_pos h0] at h
      have hv : v0 = v := by simpa using h
      rw [setKey_cons, if_pos h0, h0, hv]
    · rw [lookup_cons, if_neg h0] at h
      rw [setKey_cons, if_neg h0, ih h]

theorem sumVals_setKey (m : List (String × Nat)) (k : String) (v : Nat) :
    (sumVals (setKey m k v) : Int) =
      (sumVals m : Int) + (v : Int) - (((lookupCount m k).getD 0 : Nat) : Int) := by
  induction m with
  | nil => simp [setKey, sumVals, lookupCount]
  | cons kv rest ih =>
    obtain ⟨k0, v0⟩ := kv
    by_cases h : k0 = k
    · rw [setKey_cons, if_pos h, lookup_cons, if_pos h, sumVals_cons, sumVals_cons]
      simp only [Option.getD_some]
      push_cast
      ring
    · rw [setKey_cons, if_neg h, lookup_cons, if_neg h, sumVals_cons, sumVals_cons]
      push_cast
      push_cast at ih
      omega

theorem keys_setKey_of_mem (m : List (String × Nat)) (k : String) (v : Nat)
    (h : k ∈ keys m) : keys (setKey m k v) = keys m := by
  induction m with
  | nil => simp [keys] at h
  | cons kv rest ih =>
    obtain ⟨k0, v0⟩ := kv
    by_cases h0 : k0 = k
    · rw [setKey_cons, if_pos h0, keys_cons, keys_cons, h0]
    · have h' : k ∈ keys rest := by
        rcases (by simpa [keys_cons] using h : k = k0 ∨ k ∈ keys rest) with h1 | h1
        · exact absurd h1.symm h0
        · exact h1
      rw [setKey_cons, if_neg h0, keys_cons, keys_cons, ih h']

theorem keys_setKey_of_not_mem (m : List (String × Nat)) (k : String) (v : Nat)
    (h : k ∉ keys m) : keys (setKey m k v) = keys m ++ [k] := by
  induction m with
  | nil => simp [setKey, keys]
  | cons kv rest ih =>
    obtain ⟨k0, v0⟩ := kv
    rw [keys_cons, List.mem_cons] at h
    push_neg at h
    have h0 : k0 ≠ k := fun hh => h.1 hh.symm
    rw [setKey_cons, if_neg h0, keys_cons, keys_cons, ih h.2, List.cons_append]

theorem nodup_keys_setKey (m : List (String × Nat)) (k : String) (v : Nat)
    (h : (keys m).Nodup) : (keys (setKey m k v)).Nodup := by
  by_cases hm : k ∈ keys m
  · rw [keys_setKey_of_mem m k v hm]; exact h
  · rw [keys_setKey_of_not_mem m k v hm]
    simp [List.nodup_append, h, hm]

theorem lookup_eq_none_of_not_mem (m : List (String × Nat)) (k : String)
    (h : k ∉ keys m) : lookupCount m k = none := by
  induction m with
  | nil => simp [lookupCount]
  | cons kv rest ih =>
    obtain ⟨k0, v0⟩ := kv
    simp only [keys, List.map_cons, List.mem_cons] at h
    push_neg at h
    have h0 : k0 ≠ k := fun hh => h.1 hh.symm
    simp [lookupCount, h0, ih h.2]

theorem lookup_isSome_of_mem (m : List (String × Nat)) (k : String)
    (h : k ∈ keys m) : (lookupCount m k).isSome = true := by
  induction m with
  | nil => simp [keys] at h
  | cons kv rest ih =>
    obtain ⟨k0, v0⟩ := kv
    by_cases h0 : k0 = k
    · simp [lookupCount, h0]
    · simp only [keys, List.map_cons, List.mem_cons] at h
      rcases h with h | h
      · exact absurd h.symm h0
      · simp [lookupCount, h0, ih h]

theorem mem_keys_of_lookup_isSome (m : List (String × Nat)) (k : String)
    (h : (lookupCount m k).isSome = true) : k ∈ keys m := by
  by_contra hn
  rw [lookup_eq_none_of_not_mem m k hn] at h
  simp at h

theorem sumVals_eq_sum_over_keys (m : List (String × Nat))
    (h : (keys m).Nodup) :
    (sumVals m : Int) =
      ∑ k ∈ (keys m).toFinset, (((lookupCount m k).getD 0 : Nat) : Int) := by
  induction m with
  | nil => simp [sumVals, keys]
  | cons kv rest ih =>
    obtain ⟨k0, v0⟩ := kv
    rw [keys_cons, List.nodup_cons] at h
    have hk0 : k0 ∉ (keys rest).toFinset := by
      rw [List.mem_toFinset]
      exact h.1
    have hins : ((keys ((k0, v0) :: rest)).toFinset : Finset String) =
        insert k0 (keys rest).toFinset := by
      rw [keys_cons, List.toFinset_cons]
    rw [hins, Finset.sum_insert hk0]
    have hcongr : ∀ k ∈ (keys rest).toFinset,
        (((lookupCount ((k0, v0) :: rest) k).getD 0 : Nat) : Int) =
          (((lookupCount rest k).getD 0 : Nat) : Int) := by
      intro k hk
      have hne : k0 ≠ k := by
        rintro rfl
        exact h.1 (by simpa [List.mem_toFinset] using hk)
      rw [lookup_cons, if_neg hne]
    rw [Finset.sum_congr rfl hcongr, ← ih h.2, sumVals_cons, lookup_cons, if_pos rfl]
    simp only [Option.getD_some]
    push_cast
    ring

/-! ### Lemmas about the initialize fold -/

/-- The sum of the stored counts of the listed paths (0 for absent keys). -/
def sumLookups (m : List (String × Nat)) (ps : List String) : Int :=
  (ps.map (fun p => (((lookupCount m p).getD 0 : Nat) : Int))).sum

theorem nextCount_eq_getD (env : Env) (m : List (String × Nat)) (p : String) :
    nextCount env m p = (lookupCount m p).getD (countFileLines env p) := by
  unfold nextCount
  cases lookupCount m p <;> rfl

theorem nextCount_congr (env : Env) (m1 m2 : List (String × Nat)) (p : String)
    (h : lookupCount m1 p = lookupCount m2 p) :
    nextCount env m1 p = nextCount env m2 p := by
  unfold nextCount
  rw [h]

theorem initFold_lookup_stable (env : Env) (ps : List String)
    (m : List (String × Nat)) (t : Int) (k : String) (c : Nat)
    (h : lookupCount m k = some c) :
    lookupCount (ps.foldl (initStep env) (m, t)).1 k = some c := by
  induction ps generalizing m t with
  | nil => simpa using h
  | cons p ps ih =>
    rw [List.foldl_cons]
    by_cases hpk : p = k
    · subst hpk
      have hc : nextCount env m p = c := by
        unfold nextCount
        rw [h]
      apply ih
      rw [hc, lookup_setKey_self]
    · apply ih
      simp only [initStep]
      rw [lookup_setKey_ne _ _ _ _ (fun hh => hpk hh.symm)]
      exact h

theorem initFold_lookup_of_mem (env : Env) (ps : List String)
    (m : List (String × Nat)) (t : Int) (p : String) (hp : p ∈ ps) :
    lookupCount (ps.foldl (initStep env) (m, t)).1 p =
      some (nextCount env m p) := by
  induction ps generalizing m t with
  | nil => simp at hp
  | cons q ps ih =>
    rw [List.foldl_cons]
    by_cases hqp : q = p
    · subst hqp
      exact initFold_lookup_stable env ps _ _ q _ (lookup_setKey_self m q _)
    · have hp' : p ∈ ps := by
        rcases List.mem_cons.mp hp with h1 | h1
        · exact absurd h1.symm hqp
        · exact h1
      have hlk : lookupCount (setKey m q (nextCount env m q)) p = lookupCount m p :=
        lookup_setKey_ne _ _ _ _ (fun hh => hqp hh.symm)
      rw [ih _ _ hp']
      simp only [initStep]
      rw [nextCount_congr env _ m p hlk]

theorem initFold_lookup_of_not_mem (env : Env) (ps : List String)
    (m : List (String × Nat)) (t : Int) (k : String) (hk : k ∉ ps) :
    lookupCount (ps.foldl (initStep env) (m, t)).1 k = lookupCount m k := by
  induction ps generalizing m t with
  | nil => rfl
  | cons p ps ih =>
    rw [List.mem_cons] at hk
    push_neg at hk
    rw [List.foldl_cons, ih _ _ hk.2]
    simp only [initStep]
    rw [lookup_setKey_ne _ _ _ _ hk.1]

theorem initFold_total_eq_sum_final (env : Env) (ps : List String)
    (m : List (String × Nat)) (t : Int) :
    (ps.foldl (initStep env) (m, t)).2 =
      t + sumLookups (ps.foldl (initStep env) (m, t)).1 ps := by
  induction ps generalizing m t with
  | nil => simp [sumLookups]
  | cons p ps ih =>
    rw [List.foldl_cons]
    have hfinal : lookupCount ((p :: ps).foldl (initStep env) (m, t)).1 p =
        some (nextCount env m p) :=
      initFold_lookup_of_mem env (p :: ps) m t p (List.mem_cons_self p ps)
    rw [List.foldl_cons] at hfinal
    rw [ih]
    unfold sumLookups
    rw [List.map_cons, List.sum_cons, hfinal]
    simp only [initStep, Option.getD_some]
    ring

theorem initFold_of_all_present (env : Env) (ps : List String)
    (m : List (String × Nat)) (t : Int)
    (h : ∀ p ∈ ps, (lookupCount m p).isSome = true) :
    ps.foldl (initStep env) (m, t) = (m, t + sumLookups m ps) := by
  induction ps generalizing t with
  | nil => simp [sumLookups]
  | cons p ps ih =>
    obtain ⟨c, hc⟩ := Option.isSome_iff_exists.mp (h p (List.mem_cons_self p ps))
    have hnc : nextCount env m p = c := by
      unfold nextCount
      rw [hc]
    rw [List.foldl_cons]
    simp only [initStep]
    rw [hnc, setKey_same m p c hc,
      ih _ (fun q hq => h q (List.mem_cons_of_mem p hq))]
    unfold sumLookups
    rw [List.map_cons, List.sum_cons, hc]
    simp only [Option.getD_some]
    rw [add_assoc]

theorem initFold_keys_subset (env : Env) (ps : List String)
    (m : List (String × Nat)) (t : Int) (k : String)
    (h : k ∈ keys (ps.foldl (initStep env) (m, t)).1) :
    k ∈ keys m ∨ k ∈ ps := by
  induction ps generalizing m t with
  | nil => exact Or.inl h
  | cons p ps ih =>
    rw [List.foldl_cons] at h
    rcases ih _ _ h with h1 | h1
    · simp only [initStep] at h1
      by_cases hm : p ∈ keys m
      · rw [keys_setKey_of_mem m p _ hm] at h1
        exact Or.inl h1
      · rw [keys_setKey_of_not_mem m p _ hm, List.mem_append] at h1
        rcases h1 with h2 | h2
        · exact Or.inl h2
        · simp only [List.mem_singleton] at h2
          exact Or.inr (h2 ▸ List.mem_cons_self p ps)
    · exact Or.inr (List.mem_cons_of_mem p h1)

theorem initFold_keys_nodup (env : Env) (ps : List String)
    (m : List (String × Nat)) (t : Int) (h : (keys m).Nodup) :
    (keys (ps.foldl (initStep env) (m, t)).1).Nodup := by
  induction ps generalizing m t with
  | nil => exact h
  | cons p ps ih =>
    rw [List.foldl_cons]
    simp only [initStep]
    exact ih _ _ (nodup_keys_setKey m p _ h)

theorem initFold_sumVals (env : Env) (ps : List String)
    (m : List (String × Nat)) (t : Int) (hps : ps.Nodup) :
    (sumVals (ps.foldl (initStep env) (m, t)).1 : Int) =
      (sumVals m : Int) + ((ps.foldl (initStep env) (m, t)).2 - t)
        - sumLookups m ps := by
  induction ps generalizing m t with
  | nil => simp [sumLookups]
  | cons p ps ih =>
    rw [List.nodup_cons] at hps
    rw [List.foldl_cons]
    simp only [initStep]
    have hsum : sumLookups (setKey m p (nextCount env m p)) ps = sumLookups m ps := by
      unfold sumLookups
      congr 1
      apply List.map_congr_left
      intro q hq
      rw [lookup_setKey_ne m p q _ (fun hh => hps.1 (hh ▸ hq))]
    have := ih (setKey m p (nextCount env m p)) (t + (nextCount env m p : Int)) hps.2
    rw [hsum] at this
    rw [this, sumVals_setKey m p (nextCount env m p)]
    unfold sumLookups
    rw [List.map_cons, List.sum_cons]
    rw [nextCount_eq_getD]
    cases hl : lookupCount m p with
    | none => simp only [hl, Option.getD_none] ; push_cast ; ring

    | some c => simp only [hl, Option.getD_some] ; ring

theorem initFold_total_nodup (env : Env) (ps : List String)
    (m : List (String × Nat)) (t : Int) (hps : ps.Nodup) :
    (ps.foldl (initStep env) (m, t)).2 =
      t + (ps.map (fun p => ((nextCount env m p : Nat) : Int))).sum := by
  induction ps generalizing m t with
  | nil => simp
  | cons p ps ih =>
    rw [List.nodup_cons] at hps
    rw [List.foldl_cons]
    simp only [initStep]
    rw [ih _ _ hps.2, List.map_cons, List.sum_cons]
    have hcongr : (ps.map (fun q => ((nextCount env (setKey m p (nextCount env m p)) q : Nat) : Int))) =
        ps.map (fun q => ((nextCount env m q : Nat) : Int)) := by
      apply List.map_congr_left
      intro q hq
      rw [nextCount_congr env _ m q
        (lookup_setKey_ne m p q _ (fun hh => hps.1 (hh ▸ hq)))]
    rw [hcongr, add_assoc]

/-! ### Lemmas about single change events -/

theorem hdc_none (st : WorkspaceState) (doc : TextDocument)
    (h : st.path = none) : handleDocumentChange st doc = st := by
  unfold handleDocumentChange
  rw [h]

theorem hdc_not_file (st : WorkspaceState) (doc : TextDocument)
    (h : doc.scheme ≠ "file") : handleDocumentChange st doc = st := by
  unfold handleDocumentChange
  cases st.path with
  | none => rfl
  | some root =>
    dsimp only
    rw [if_pos h]

theorem hdc_ignored (st : WorkspaceState) (doc : TextDocument) (root : String)
    (hp : st.path = some root)
    (hig : st.ig (posixRelative root doc.fsPath) = true) :
    handleDocumentChange st doc = st := by
  unfold handleDocumentChange
  rw [hp]
  dsimp only
  by_cases hs : doc.scheme ≠ "file"
  · rw [if_pos hs]
  · rw [if_neg hs]
    simp [hig]

theorem hdc_update (st : WorkspaceState) (doc : TextDocument) (root : String)
    (hp : st.path = some root) (hs : doc.scheme = "file")
    (hig : st.ig (posixRelative root doc.fsPath) = false) :
    handleDocumentChange st doc =
      { st with
          total := st.total + ((countTextLines doc.content : Int) -
            (((lookupCount st.fileCounts doc.fsPath).getD 0 : Nat) : Int)),
          fileCounts :=
            setKey st.fileCounts doc.fsPath (countTextLines doc.content) } := by
  unfold handleDocumentChange
  rw [hp]
  dsimp only
  rw [if_neg (by simp [hs])]
  simp [hig]

/-- Every run of `handleDocumentChange` either leaves the state unchanged or
performs the in-place update of the matched branch. -/
theorem hdc_cases (st : WorkspaceState) (doc : TextDocument) :
    handleDocumentChange st doc = st ∨
    ∃ root, st.path = some root ∧ doc.scheme = "file" ∧
      st.ig (posixRelative root doc.fsPath) = false ∧
      handleDocumentChange st doc =
        { st with
            total := st.total + ((countTextLines doc.content : Int) -
              (((lookupCount st.fileCounts doc.fsPath).getD 0 : Nat) : Int)),
            fileCounts :=
              setKey st.fileCounts doc.fsPath (countTextLines doc.content) } := by
  rcases Option.eq_none_or_eq_some st.path with hp | ⟨root, hp⟩
  · exact Or.inl (hdc_none st doc hp)
  · by_cases hs : doc.scheme = "file"
    · cases hig : st.ig (posixRelative root doc.fsPath) with
      | true => exact Or.inl (hdc_ignored st doc root hp hig)
      | false =>
        exact Or.inr ⟨root, hp, hs, hig, hdc_update st doc root hp hs hig⟩
    · exact Or.inl (hdc_not_file st doc hs)

theorem hdc_path_eq (st : WorkspaceState) (doc : TextDocument) :
    (handleDocumentChange st doc).path = st.path := by
  rcases hdc_cases st doc with h | ⟨root, _, _, _, h⟩ <;> rw [h]

theorem hdc_ig_eq (st : WorkspaceState) (doc : TextDocument) :
    (handleDocumentChange st doc).ig = st.ig := by
  rcases hdc_cases st doc with h | ⟨root, _, _, _, h⟩ <;> rw [h]

theorem hdc_total_delta (st : WorkspaceState) (doc : TextDocument) :
    (handleDocumentChange st doc).total - st.total =
      (sumVals (handleDocumentChange st doc).fileCounts : Int) -
        (sumVals st.fileCounts : Int) := by
  rcases hdc_cases st doc with h | ⟨root, _, _, _, h⟩
  · rw [h]
    ring
  · rw [h]
    show st.total + _ - st.total = (sumVals (setKey _ _ _) : Int) - _
    rw [sumVals_setKey]
    ring

/-- The count carried by the last event of the sequence touching `p`. -/
def latestChangeCount : List TextDocument → String → Option Nat
  | [], _ => none
  | d :: rest, p =>
    match latestChangeCount rest p with
    | some c => some c
    | none => if d.fsPath = p then some (countTextLines d.content) else none

theorem latestChangeCount_eq_none_iff (ds : List TextDocument) (p : String) :
    latestChangeCount ds p = none ↔ ∀ d ∈ ds, d.fsPath ≠ p := by
  induction ds with
  | nil => simp [latestChangeCount]
  | cons d rest ih =>
    unfold latestChangeCount
    cases h : latestChangeCount rest p with
    | some c =>
      simp only [List.mem_cons]
      constructor
      · intro hfalse
        exact absurd hfalse (by simp)
      · intro hall
        exfalso
        rw [ih.mpr (fun d' hd' => hall d' (Or.inr hd'))] at h
        exact Option.noConfusion h
    | none =>
      by_cases hd : d.fsPath = p
      · simp [hd]
      · simp only [if_neg hd, List.mem_cons]
        constructor
        · intro _ d' hd'
          rcases hd' with h1 | h1
          · exact h1 ▸ hd
          · exact (ih.mp h) d' h1
        · intro _
          trivial

theorem latestChangeCount_isSome_of_mem (ds : List TextDocument) (p : String)
    (h : p ∈ ds.map (fun d => d.fsPath)) :
    (latestChangeCount ds p).isSome = true := by
  cases hl : latestChangeCount ds p with
  | some c => rfl
  | none =>
    obtain ⟨d, hd, hdp⟩ := List.mem_map.mp h
    exact absurd hdp ((latestChangeCount_eq_none_iff ds p).mp hl d hd)

/-- The joint facts about a run of accepted change events: the root and the
rule set never move, the key set never moves, the total moves exactly as the
stored sum moves, untouched entries keep their values, and every touched
entry ends at the count of its last event. -/
theorem runChanges_facts (root : String) (ig0 : String → Bool)
    (ds : List TextDocument) :
    ∀ st : WorkspaceState, st.path = some root → st.ig = ig0 →
    (∀ d ∈ ds, d.scheme = "file" ∧
      ig0 (posixRelative root d.fsPath) = false ∧
      d.fsPath ∈ keys st.fileCounts) →
    (runChanges st ds).path = some root ∧
    (runChanges st ds).ig = ig0 ∧
    keys (runChanges st ds).fileCounts = keys st.fileCounts ∧
    ((runChanges st ds).total - st.total =
      (sumVals (runChanges st ds).fileCounts : Int) -
        (sumVals st.fileCounts : Int)) ∧
    (∀ p, p ∉ ds.map (fun d => d.fsPath) →
      lookupCount (runChanges st ds).fileCounts p =
        lookupCount st.fileCounts p) ∧
    (∀ p c, latestChangeCount ds p = some c →
      lookupCount (runChanges st ds).fileCounts p = some c) := by
  induction ds with
  | nil =>
    intro st hp hig _
    refine ⟨hp, hig, rfl, ?_, fun p _ => rfl, fun p c hc => ?_⟩
    · show st.total - st.total = (sumVals st.fileCounts : Int) - (sumVals st.fileCounts : Int)
      ring
    exact absurd hc (by simp [latestChangeCount])
  | cons d rest ih =>
    intro st hp hig hok
    obtain ⟨hds, hdig, hdk⟩ := hok d (List.mem_cons_self d rest)
    have hupd := hdc_update st d root hp hds (by rw [hig] ; exact hdig)
    obtain ⟨st', hst'⟩ : ∃ st', handleDocumentChange st d = st' := ⟨_, rfl⟩
    rw [hst'] at hupd
    have hp' : st'.path = some root := by rw [← hst', hdc_path_eq, hp]
    have hig' : st'.ig = ig0 := by rw [← hst', hdc_ig_eq, hig]
    have hkeys' : keys st'.fileCounts = keys st.fileCounts := by
      rw [hupd]
      exact keys_setKey_of_mem _ _ _ hdk
    have hok' : ∀ d' ∈ rest, d'.scheme = "file" ∧
        ig0 (posixRelative root d'.fsPath) = false ∧
        d'.fsPath ∈ keys st'.fileCounts := by
      intro d' hd'
      obtain ⟨h1, h2, h3⟩ := hok d' (List.mem_cons_of_mem d hd')
      exact ⟨h1, h2, hkeys' ▸ h3⟩
    have hrun : runChanges st (d :: rest) = runChanges st' rest := by
      show runChanges (handleDocumentChange st d) rest = runChanges st' rest
      rw [hst']
    obtain ⟨f1, f2, f3, f4, f5, f6⟩ := ih st' hp' hig' hok'
    refine ⟨hrun ▸ f1, hrun ▸ f2, ?_, ?_, ?_, ?_⟩
    · rw [hrun, f3, hkeys']
    · rw [hrun]
      have hstep := hdc_total_delta st d
      rw [hst'] at hstep
      omega
    · intro p hpmem
      have hp1 : p ∉ rest.map (fun d => d.fsPath) := by
        intro hmem
        exact hpmem (by rw [List.map_cons] ; exact List.mem_cons_of_mem _ hmem)
      have hp2 : d.fsPath ≠ p := by
        intro hh
        exact hpmem (by rw [List.map_cons, hh] ; exact List.mem_cons_self p _)
      rw [hrun, f5 p hp1, hupd]
      exact lookup_setKey_ne _ _ _ _ (fun hh => hp2 hh.symm)
    · intro p c hc
      unfold latestChangeCount at hc
      cases hl : latestChangeCount rest p with
      | some c0 =>
        simp only [hl] at hc
        exact hrun ▸ f6 p c (hl.trans (by rw [hc]))
      | none =>
        simp only [hl] at hc
        by_cases hdp : d.fsPath = p
        · rw [if_pos hdp] at hc
          have hnot : p ∉ rest.map (fun d => d.fsPath) := by
            intro hmem
            obtain ⟨d', hd', hdp'⟩ := List.mem_map.mp hmem
            exact (latestChangeCount_eq_none_iff rest p).mp hl d' hd' hdp'
          rw [hrun, f5 p hnot, hupd]
          show lookupCount (setKey st.fileCounts d.fsPath (countTextLines d.content)) p
            = some c
          rw [← hdp, lookup_setKey_self]
          exact hc
        · rw [if_neg hdp] at hc
          exact Option.noConfusion hc

/-! ### Specification-level line counting -/

/-- The spec's "treat `\r\n` and `\n` as equivalent separators", expressed
as a normalization pass: replace every two-character `\r\n` by `\n`. -/
def normalizeEOL : List Char → List Char
  | [] => []
  | '\r' :: '\n' :: rest => '\n' :: normalizeEOL rest
  | c :: rest => c :: normalizeEOL rest

/-- Split on bare `\n` only. -/
def splitOnNL : List Char → List (List Char)
  | [] => [[]]
  | '\n' :: rest => [] :: splitOnNL rest
  | c :: rest => consHead c (splitOnNL rest)

/-- The count the spec describes: split the normalized text at `\n` and
count the segments whose whitespace-trimmed length is nonzero. -/
def countLinesSpec (text : String) : Nat :=
  ((splitOnNL (normalizeEOL text.toList)).filter
    (fun l => (jsTrim l).length > 0)).length

theorem jsSplitLines_eq_spec (l : List Char) :
    jsSplitLines l = splitOnNL (normalizeEOL l) := by
  induction l using jsSplitLines.induct with
  | case1 => rfl
  | case2 rest ih =>
    have h1 : normalizeEOL ('\n' :: rest) = '\n' :: normalizeEOL rest := by
      simp [normalizeEOL]
    rw [jsSplitLines.eq_2, h1, splitOnNL.eq_2, ih]
  | case3 rest ih =>
    have h1 : normalizeEOL ('\x0d' :: '\n' :: rest) = '\n' :: normalizeEOL rest := by
      simp [normalizeEOL]
    rw [jsSplitLines.eq_3, h1, splitOnNL.eq_2, ih]
  | case4 c rest hc hcr ih =>
    have h1 : normalizeEOL (c :: rest) = c :: normalizeEOL rest :=
      normalizeEOL.eq_3 c rest hcr
    have h2 : splitOnNL (c :: normalizeEOL rest) =
        consHead c (splitOnNL (normalizeEOL rest)) :=
      splitOnNL.eq_3 c (normalizeEOL rest) hc
    rw [jsSplitLines.eq_4 c rest hc hcr, h1, h2, ih]

theorem countTextLines_eq_spec (s : String) :
    countTextLines s = countLinesSpec s := by
  unfold countTextLines countLinesSpec
  rw [jsSplitLines_eq_spec]

/-! ### Remaining helper lemmas -/

theorem sumLookups_of_keys_subset (m : List (String × Nat)) (ps : List String)
    (hknd : (keys m).Nodup) (hpnd : ps.Nodup)
    (hsub : ∀ k ∈ keys m, k ∈ ps) :
    sumLookups m ps = (sumVals m : Int) := by
  unfold sumLookups
  rw [← List.sum_toFinset _ hpnd, sumVals_eq_sum_over_keys m hknd]
  symm
  apply Finset.sum_subset
  · intro x hx
    rw [List.mem_toFinset] at hx ⊢
    exact hsub x hx
  · intro x _ hx
    rw [List.mem_toFinset] at hx
    rw [lookup_eq_none_of_not_mem m x hx]
    simp

theorem initWorkspace_eq (env : Env) (st : WorkspaceState) (root : String)
    (hf : env.folders = some root) :
    initWorkspace env st =
      { path := some root
        total := ((getTrackedFiles env root (loadGitignore env root)).foldl
          (initStep env) (st.fileCounts, 0)).2
        fileCounts := ((getTrackedFiles env root (loadGitignore env root)).foldl
          (initStep env) (st.fileCounts, 0)).1
        ig := loadGitignore env root } := by
  unfold initWorkspace
  rw [hf]

theorem mem_getTrackedFiles (env : Env) (root : String) (ig : String → Bool)
    (p : String) :
    p ∈ getTrackedFiles env root ig ↔
      p ∈ env.files ∧ ig (posixRelative root p) = false := by
  unfold getTrackedFiles
  rw [List.mem_filter]
  simp

/-! ### Concrete fixtures -/

/-- The pristine `workspaceState` object before any event: no path, zero
total, empty record, empty rule set (`ignore()` excludes nothing). -/
def initialState : WorkspaceState :=
  { path := none
    total := 0
    fileCounts := []
    ig := fun _ => false }

/-- A workspace at `/w` holding one one-line file and no exclusion rules. -/
def envOneFile : Env :=
  { folders := some "/w"
    files := ["/w/a.txt"]
    rules := fun _ _ => false
    disk := fun _ => some "x" }

/-- A workspace at `/w` holding one two-line file and no exclusion rules. -/
def envTwoLines : Env :=
  { folders := some "/w"
    files := ["/w/a.txt"]
    rules := fun _ _ => false
    disk := fun _ => some "x\ny" }

/-- The workspace at `/w` after its only file disappeared from disk. -/
def envFileGone : Env :=
  { folders := some "/w"
    files := []
    rules := fun _ _ => false
    disk := fun _ => none }

/-- The workspace at `/w` after a rules change that excludes every path. -/
def envExclAll : Env :=
  { folders := some "/w"
    files := ["/w/a.txt"]
    rules := fun _ _ => true
    disk := fun _ => some "x" }

/-- A workspace at `/w` whose only tracked file has two lines on disk. -/
def envStale : Env :=
  { folders := some "/w"
    files := ["/w/a.txt"]
    rules := fun _ _ => false
    disk := fun p => if p = "/w/a.txt" then some ("l1\nl2") else none }

/-- A state carrying cached counts: 5 for the tracked file (stale versus
its 2 lines on disk in `envStale`) and 7 for a file no longer enumerated. -/
def stStale : WorkspaceState :=
  { path := some "/w"
    total := 5
    fileCounts := [("/w/a.txt", 5), ("/w/gone.txt", 7)]
    ig := fun _ => false }

/-- An active empty workspace at `/w` whose rule set excludes nothing. -/
def stNoIgnores : WorkspaceState :=
  { path := some "/w"
    total := 0
    fileCounts := []
    ig := fun _ => false }

/-- An active empty workspace at `/w` whose rule set excludes everything. -/
def stAllIgnored : WorkspaceState :=
  { path := some "/w"
    total := 0
    fileCounts := []
    ig := fun _ => true }

/-- A change event for `/w/a.txt` with three-line in-memory content. -/
def docThreeLines : TextDocument :=
  { scheme := "file"
    fsPath := "/w/a.txt"
    content := "p\nq\nr" }

/-- A change event for `/w/a.txt` with empty in-memory content. -/
def docEmptied : TextDocument :=
  { scheme := "file"
    fsPath := "/w/a.txt"
    content := "" }

/-- A change event whose path lies outside the `/w` root. -/
def docOutside : TextDocument :=
  { scheme := "file"
    fsPath := "/x/f.txt"
    content := "line" }

/-- A change event on a non-file (virtual) document. -/
def docUntitled : TextDocument :=
  { scheme := "untitled"
    fsPath := "/w/a.txt"
    content := "p\nq" }

/-! ### The claims -/

/-- C8: for every string input, `countTextLines` returns the number of
segments obtained by splitting on line boundaries (`\n` and `\r\n` as
equivalent separators, per `countLinesSpec`) whose whitespace-trimmed
length is nonzero; being a total Lean function it cannot throw; and the
three quoted evaluations hold. -/
theorem c8_countLines_refinement :
    (∀ s : String, countTextLines s = countLinesSpec s) ∧
    countTextLines ("a\n\n  \nb\r\nc") = 3 ∧
    countTextLines ("") = 0 ∧
    countTextLines ("   \n\t\n") = 0 :=
  ⟨countTextLines_eq_spec, by decide, by decide, by decide⟩

/-- C5: when `handleDocumentChange` runs for a non-excluded path under an
active root (with a `file`-scheme document), it computes the new count from
the supplied in-memory content alone, takes the old count from the map
entry (0 when absent), adds the signed difference to the total, and writes
the new count into the map entry. -/
theorem c5_change_updates_in_place (st : WorkspaceState) (doc : TextDocument)
    (root : String) (hp : st.path = some root) (hs : doc.scheme = "file")
    (hig : st.ig (posixRelative root doc.fsPath) = false) :
    handleDocumentChange st doc =
      { st with
          total := st.total + ((countTextLines doc.content : Int) -
            (((lookupCount st.fileCounts doc.fsPath).getD 0 : Nat) : Int)),
          fileCounts :=
            setKey st.fileCounts doc.fsPath (countTextLines doc.content) } :=
  hdc_update st doc root hp hs hig

/-- Witness for C5 at a concrete input. -/
theorem c5_change_updates_in_place_witness :
    stNoIgnores.path = some "/w" ∧
    handleDocumentChange stNoIgnores docThreeLines =
      { stNoIgnores with
          total := stNoIgnores.total +
            ((countTextLines docThreeLines.content : Int) -
              (((lookupCount stNoIgnores.fileCounts docThreeLines.fsPath).getD 0
                : Nat) : Int)),
          fileCounts := setKey stNoIgnores.fileCounts docThreeLines.fsPath
            (countTextLines docThreeLines.content) } :=
  ⟨rfl, c5_change_updates_in_place stNoIgnores docThreeLines "/w" rfl rfl rfl⟩

/-- C10: a change event whose document URI scheme is not `file` leaves the
state (map and total included) unchanged, whatever the rest of the state. -/
theorem c10_non_file_scheme_noop (st : WorkspaceState) (doc : TextDocument)
    (h : doc.scheme ≠ "file") : handleDocumentChange st doc = st :=
  hdc_not_file st doc h

/-- Witness for C10: an `untitled` document under an active root whose path
would be included is still ignored. -/
theorem c10_non_file_scheme_noop_witness :
    docUntitled.scheme ≠ "file" ∧
    handleDocumentChange stNoIgnores docUntitled = stNoIgnores :=
  ⟨by decide, c10_non_file_scheme_noop stNoIgnores docUntitled (by decide)⟩

/-- C7: with an active root, `handleDocumentSave` performs a full
reinitialize exactly when the saved path equals `RootPath ++ "/.gitignore"`
and otherwise leaves the state unchanged; with no root it is a no-op. -/
theorem c7_save_rules_file_reinitializes (env : Env) (st : WorkspaceState)
    (docPath : String) :
    (st.path = none → handleDocumentSave env st docPath = st) ∧
    (∀ root, st.path = some root →
      (docPath = joinPath root gitignoreFileName →
        handleDocumentSave env st docPath = initWorkspace env st) ∧
      (docPath ≠ joinPath root gitignoreFileName →
        handleDocumentSave env st docPath = st)) := by
  constructor
  · intro h
    unfold handleDocumentSave
    rw [h]
  · intro root h
    constructor
    · intro hd
      unfold handleDocumentSave
      rw [h]
      dsimp only
      rw [if_pos hd]
    · intro hd
      unfold handleDocumentSave
      rw [h]
      dsimp only
      rw [if_neg hd]

/-- Witness for C7 at concrete inputs: saving `/w/.gitignore` triggers the
rescan, saving another file does not. -/
theorem c7_save_rules_file_reinitializes_witness :
    (handleDocumentSave envOneFile stNoIgnores "/w/.gitignore" =
      initWorkspace envOneFile stNoIgnores) ∧
    (handleDocumentSave envOneFile stNoIgnores "/w/a.txt" = stNoIgnores) :=
  ⟨((c7_save_rules_file_reinitializes envOneFile stNoIgnores
      "/w/.gitignore").2 "/w" rfl).1 (by decide),
   ((c7_save_rules_file_reinitializes envOneFile stNoIgnores
      "/w/a.txt").2 "/w" rfl).2 (by decide)⟩

/-- C9: running `initialize` twice in a row against the same unchanged
environment yields the same `fileCounts` map and the same total as running
it once. -/
theorem c9_init_idempotent (env : Env) (st : WorkspaceState) :
    (initWorkspace env (initWorkspace env st)).fileCounts =
      (initWorkspace env st).fileCounts ∧
    (initWorkspace env (initWorkspace env st)).total =
      (initWorkspace env st).total := by
  rcases Option.eq_none_or_eq_some env.folders with hf | ⟨root, hf⟩
  · unfold initWorkspace
    rw [hf]
    exact ⟨rfl, rfl⟩
  · rw [initWorkspace_eq env st root hf,
      initWorkspace_eq env _ root hf]
    dsimp only
    have hpresent : ∀ p ∈ getTrackedFiles env root (loadGitignore env root),
        (lookupCount ((getTrackedFiles env root (loadGitignore env root)).foldl
          (initStep env) (st.fileCounts, 0)).1 p).isSome = true := by
      intro p hp
      rw [initFold_lookup_of_mem env _ st.fileCounts 0 p hp]
      rfl
    have hB := initFold_of_all_present env
      (getTrackedFiles env root (loadGitignore env root))
      ((getTrackedFiles env root (loadGitignore env root)).foldl
        (initStep env) (st.fileCounts, 0)).1 0 hpresent
    have hA2 := initFold_total_eq_sum_final env
      (getTrackedFiles env root (loadGitignore env root)) st.fileCounts 0
    rw [hB]
    refine ⟨rfl, ?_⟩
    dsimp only
    rw [hA2]

/-- C1 counterexample: after a reinitialize whose scan no longer finds the
previously tracked file, the stale map entry survives while the total is
reset, and the very next change event (a quiescent point) drives the total
to −1 even though the stored values sum to 0 — refuting both conjuncts of
the claimed invariant. -/
theorem c1_counterexample :
    (handleDocumentChange
      (initWorkspace envFileGone (initWorkspace envOneFile initialState))
      docEmptied).total = -1 ∧
    sumVals (handleDocumentChange
      (initWorkspace envFileGone (initWorkspace envOneFile initialState))
      docEmptied).fileCounts = 0 := by
  constructor
  · rfl
  · rfl

/-- C1 (amended): the total equals the sum of all stored counts (and is
hence nonnegative) at every quiescent point reachable while each
reinitialize's tracked-file set still covers every key already in the map —
in particular after a first initialize from the empty map — and the
equality is preserved by every change event and by every save of a
non-rules path; a rescan that drops an existing key can break it. -/
theorem c1_total_matches_sum_amended (env : Env) (st : WorkspaceState)
    (root : String) :
    (env.folders = some root → (keys st.fileCounts).Nodup →
      (getTrackedFiles env root (loadGitignore env root)).Nodup →
      (∀ k ∈ keys st.fileCounts,
        k ∈ getTrackedFiles env root (loadGitignore env root)) →
      (initWorkspace env st).total =
        (sumVals (initWorkspace env st).fileCounts : Int)) ∧
    (∀ doc, st.total = (sumVals st.fileCounts : Int) →
      (handleDocumentChange st doc).total =
        (sumVals (handleDocumentChange st doc).fileCounts : Int)) ∧
    (∀ docPath, st.total = (sumVals st.fileCounts : Int) →
      st.path = some root → docPath ≠ joinPath root gitignoreFileName →
      (handleDocumentSave env st docPath).total =
        (sumVals (handleDocumentSave env st docPath).fileCounts : Int)) ∧
    (st.total = (sumVals st.fileCounts : Int) → 0 ≤ st.total) := by
  refine ⟨?_, ?_, ?_, ?_⟩
  · intro hf hknd htnd hsub
    rw [initWorkspace_eq env st root hf]
    dsimp only
    have hs := initFold_sumVals env
      (getTrackedFiles env root (loadGitignore env root)) st.fileCounts 0 htnd
    rw [sumLookups_of_keys_subset st.fileCounts _ hknd htnd hsub] at hs
    omega
  · intro doc h
    have hd := hdc_total_delta st doc
    omega
  · intro docPath h hp hne
    unfold handleDocumentSave
    rw [hp]
    dsimp only
    rw [if_neg hne]
    exact h
  · intro h
    rw [h]
    exact Int.natCast_nonneg _

/-- Witness for C1 (amended) at concrete inputs: the first initialize from
the empty map establishes the equality. -/
theorem c1_total_matches_sum_amended_witness :
    (initialState.fileCounts = []) ∧
    (initWorkspace envOneFile initialState).total =
      (sumVals (initWorkspace envOneFile initialState).fileCounts : Int) :=
  ⟨rfl, (c1_total_matches_sum_amended envOneFile initialState "/w").1 rfl
    (by decide) (by decide) (by decide)⟩

/-- C2 counterexample: with a cached count 5 for `/w/a.txt` whose fresh
count via `countFileLines` is 2, and a cached entry for a no-longer-present
file, `initialize` keeps both cached values, so the count is not recomputed
fresh and the map is not replaced by a mapping of exactly the tracked
files. -/
theorem c2_counterexample :
    getTrackedFiles envStale "/w" (loadGitignore envStale "/w") =
      ["/w/a.txt"] ∧
    countFileLines envStale "/w/a.txt" = 2 ∧
    lookupCount (initWorkspace envStale stStale).fileCounts "/w/a.txt" =
      some 5 ∧
    lookupCount (initWorkspace envStale stStale).fileCounts "/w/gone.txt" =
      some 7 := by
  refine ⟨rfl, rfl, rfl, rfl⟩

/-- C2 (amended): on initialize with a workspace open, each tracked file's
count is reused from the existing map when present and computed via
`countFileLines` only when the key is absent; entries for untracked paths
are retained rather than removed; and the total is recomputed as the sum
over the tracked files of these reused-or-fresh counts. -/
theorem c2_init_reuses_cached_counts (env : Env) (st : WorkspaceState)
    (root : String) (hf : env.folders = some root)
    (hnd : (getTrackedFiles env root (loadGitignore env root)).Nodup) :
    (∀ p ∈ getTrackedFiles env root (loadGitignore env root),
      lookupCount (initWorkspace env st).fileCounts p =
        some ((lookupCount st.fileCounts p).getD (countFileLines env p))) ∧
    (∀ p, p ∉ getTrackedFiles env root (loadGitignore env root) →
      lookupCount (initWorkspace env st).fileCounts p =
        lookupCount st.fileCounts p) ∧
    (initWorkspace env st).total =
      ((getTrackedFiles env root (loadGitignore env root)).map
        (fun p => (((lookupCount st.fileCounts p).getD
          (countFileLines env p) : Nat) : Int))).sum := by
  rw [initWorkspace_eq env st root hf]
  dsimp only
  refine ⟨?_, ?_, ?_⟩
  · intro p hp
    rw [initFold_lookup_of_mem env _ st.fileCounts 0 p hp, nextCount_eq_getD]
  · intro p hp
    exact initFold_lookup_of_not_mem env _ st.fileCounts 0 p hp
  · rw [initFold_total_nodup env _ st.fileCounts 0 hnd]
    rw [zero_add]
    congr 1
    apply List.map_congr_left
    intro p _
    rw [nextCount_eq_getD]

/-- Witness for C2 (amended) at concrete inputs: the stale count 5 is
reused for the tracked file. -/
theorem c2_init_reuses_cached_counts_witness :
    (envStale.folders = some "/w") ∧
    lookupCount (initWorkspace envStale stStale).fileCounts "/w/a.txt" =
      some ((lookupCount stStale.fileCounts "/w/a.txt").getD
        (countFileLines envStale "/w/a.txt")) :=
  ⟨rfl, (c2_init_reuses_cached_counts envStale stStale "/w" rfl
    (by decide)).1 "/w/a.txt" (by decide)⟩

/-- C3 counterexample: `/w/a.txt` enters the map under an allow-everything
rule set; after a reinitialize under an exclude-everything rule set the
path is excluded by the current rules yet remains a key of the map. -/
theorem c3_counterexample :
    (initWorkspace envExclAll (initWorkspace envOneFile initialState)).ig
      (posixRelative "/w" "/w/a.txt") = true ∧
    "/w/a.txt" ∈ keys (initWorkspace envExclAll
      (initWorkspace envOneFile initialState)).fileCounts := by
  constructor
  · rfl
  · decide

/-- C3 (amended): `initialize` inserts keys only for files of its scan that
the current rule set does not exclude; every key of the resulting map is
either such a file or a key that predates the call, and keys that predate
the call survive even when the current rules exclude them. In particular
after an initialize from an empty map no excluded path is a key. -/
theorem c3_no_new_excluded_keys (env : Env) (st : WorkspaceState)
    (root : String) (hf : env.folders = some root) :
    (∀ p, p ∈ keys (initWorkspace env st).fileCounts →
      p ∈ keys st.fileCounts ∨
        (p ∈ env.files ∧
          loadGitignore env root (posixRelative root p) = false)) ∧
    (st.fileCounts = [] → ∀ p, p ∈ keys (initWorkspace env st).fileCounts →
      (initWorkspace env st).ig (posixRelative root p) = false) := by
  have hmain : ∀ p, p ∈ keys (initWorkspace env st).fileCounts →
      p ∈ keys st.fileCounts ∨
        (p ∈ env.files ∧
          loadGitignore env root (posixRelative root p) = false) := by
    intro p hp
    rw [initWorkspace_eq env st root hf] at hp
    dsimp only at hp
    rcases initFold_keys_subset env _ st.fileCounts 0 p hp with h1 | h1
    · exact Or.inl h1
    · exact Or.inr ((mem_getTrackedFiles env root _ p).mp h1)
  refine ⟨hmain, ?_⟩
  · intro hempty p hp
    rcases hmain p hp with h1 | h1
    · rw [hempty] at h1
      exact absurd h1 (by simp [keys])
    · rw [initWorkspace_eq env st root hf]
      exact h1.2

/-- Witness for C3 (amended) at concrete inputs: after the first initialize
from an empty map the only key is not excluded. -/
theorem c3_no_new_excluded_keys_witness :
    (initialState.fileCounts = []) ∧
    (initWorkspace envOneFile initialState).ig
      (posixRelative "/w" "/w/a.txt") = false :=
  ⟨rfl, (c3_no_new_excluded_keys envOneFile initialState "/w" rfl).2 rfl
    "/w/a.txt" (by decide)⟩

/-- C6 counterexample: with an active root `/w`, a rule set excluding
nothing, and a change event for `/x/f.txt` — a path that does not reside
under the root, as its relative form `../x/f.txt` shows — the handler
performs a full update instead of the claimed silent no-op. -/
theorem c6_counterexample :
    posixRelative "/w" "/x/f.txt" = "../x/f.txt" ∧
    stNoIgnores.total = 0 ∧ stNoIgnores.fileCounts = [] ∧
    (handleDocumentChange stNoIgnores docOutside).total = 1 ∧
    (handleDocumentChange stNoIgnores docOutside).fileCounts =
      [("/x/f.txt", 1)] := by
  refine ⟨rfl, rfl, rfl, rfl, rfl⟩

/-- C6 (amended): `handleDocumentChange` is a silent no-op whenever no root
is set, or the document's URI scheme is not `file`, or the path's relative
form is excluded by the current rule set. The code performs no containment
check, so a path outside the root is handled like any other path unless its
`..`-prefixed relative form happens to be excluded. -/
theorem c6_noop_conditions (st : WorkspaceState) (doc : TextDocument) :
    (st.path = none → handleDocumentChange st doc = st) ∧
    (doc.scheme ≠ "file" → handleDocumentChange st doc = st) ∧
    (∀ root, st.path = some root →
      st.ig (posixRelative root doc.fsPath) = true →
      handleDocumentChange st doc = st) :=
  ⟨hdc_none st doc, hdc_not_file st doc,
    fun root hp hig => hdc_ignored st doc root hp hig⟩

/-- Witness for C6 (amended): an excluded path is silently ignored. -/
theorem c6_noop_conditions_witness :
    stAllIgnored.ig (posixRelative "/w" "/w/a.txt") = true ∧
    handleDocumentChange stAllIgnored docThreeLines = stAllIgnored :=
  ⟨rfl, (c6_noop_conditions stAllIgnored docThreeLines).2.2 "/w" rfl rfl⟩

/-- C4: for a sequence of change events whose paths are all included under
the rule set of the last initialize and present as keys of the map that
initialize produced, the final total equals the initialize's total plus the
sum, over the touched paths, of the count carried by the path's latest
change event minus the count the map held right after the scan. -/
theorem c4_incremental_total (env : Env) (st : WorkspaceState)
    (root : String) (ds : List TextDocument)
    (hf : env.folders = some root)
    (hnd : (keys st.fileCounts).Nodup)
    (hok : ∀ d ∈ ds, d.scheme = "file" ∧
      (initWorkspace env st).ig (posixRelative root d.fsPath) = false ∧
      d.fsPath ∈ keys (initWorkspace env st).fileCounts) :
    (runChanges (initWorkspace env st) ds).total =
      (initWorkspace env st).total +
        ∑ p ∈ (ds.map (fun d => d.fsPath)).toFinset,
          ((((latestChangeCount ds p).getD 0 : Nat) : Int) -
            (((lookupCount (initWorkspace env st).fileCounts p).getD 0
              : Nat) : Int)) := by
  have hp0 : (initWorkspace env st).path = some root := by
    rw [initWorkspace_eq env st root hf]
  have hnd0 : (keys (initWorkspace env st).fileCounts).Nodup := by
    rw [initWorkspace_eq env st root hf]
    exact initFold_keys_nodup env _ st.fileCounts 0 hnd
  obtain ⟨f1, f2, f3, f4, f5, f6⟩ :=
    runChanges_facts root (initWorkspace env st).ig ds
      (initWorkspace env st) hp0 rfl hok
  have hknd_run :
      (keys (runChanges (initWorkspace env st) ds).fileCounts).Nodup := by
    rw [f3]
    exact hnd0
  have hsumrun := sumVals_eq_sum_over_keys _ hknd_run
  have hsum0 := sumVals_eq_sum_over_keys _ hnd0
  rw [f3] at hsumrun
  have hTsubK : (ds.map (fun d => d.fsPath)).toFinset ⊆
      (keys (initWorkspace env st).fileCounts).toFinset := by
    intro p hp
    rw [List.mem_toFinset] at hp ⊢
    obtain ⟨d, hd, hdp⟩ := List.mem_map.mp hp
    exact hdp ▸ (hok d hd).2.2
  have hrestrict :
      ∑ k ∈ (keys (initWorkspace env st).fileCounts).toFinset,
        ((((lookupCount (runChanges (initWorkspace env st) ds).fileCounts
            k).getD 0 : Nat) : Int) -
          (((lookupCount (initWorkspace env st).fileCounts k).getD 0
            : Nat) : Int)) =
      ∑ k ∈ (ds.map (fun d => d.fsPath)).toFinset,
        ((((lookupCount (runChanges (initWorkspace env st) ds).fileCounts
            k).getD 0 : Nat) : Int) -
          (((lookupCount (initWorkspace env st).fileCounts k).getD 0
            : Nat) : Int)) := by
    symm
    apply Finset.sum_subset hTsubK
    intro x _ hx
    rw [List.mem_toFinset] at hx
    rw [f5 x hx, sub_self]
  have hfinal : (runChanges (initWorkspace env st) ds).total -
      (initWorkspace env st).total =
      ∑ p ∈ (ds.map (fun d => d.fsPath)).toFinset,
        ((((latestChangeCount ds p).getD 0 : Nat) : Int) -
          (((lookupCount (initWorkspace env st).fileCounts p).getD 0
            : Nat) : Int)) := by
    rw [f4, hsumrun, hsum0, ← Finset.sum_sub_distrib, hrestrict]
    apply Finset.sum_congr rfl
    intro p hp
    rw [List.mem_toFinset] at hp
    obtain ⟨c, hc⟩ := Option.isSome_iff_exists.mp
      (latestChangeCount_isSome_of_mem ds p hp)
    rw [hc, f6 p c hc]
  linarith [hfinal]

/-- Witness for C4 at concrete inputs: one tracked two-line file, one
change event carrying three lines. -/
theorem c4_incremental_total_witness :
    (envTwoLines.folders = some "/w") ∧
    (runChanges (initWorkspace envTwoLines initialState)
      [docThreeLines]).total =
      (initWorkspace envTwoLines initialState).total +
        ∑ p ∈ ([docThreeLines].map (fun d => d.fsPath)).toFinset,
          ((((latestChangeCount [docThreeLines] p).getD 0 : Nat) : Int) -
            (((lookupCount (initWorkspace envTwoLines
              initialState).fileCounts p).getD 0 : Nat) : Int)) :=
  ⟨rfl, c4_incremental_total envTwoLines initialState "/w" [docThreeLines]
    rfl (by decide) (by decide)⟩

end CodeLineCounter


